import Mathlib

/-!
# CRC-32 / CRC-64 reference tool (`crc.c`)

A shallow embedding of `Samples/RefSrc/crc.c`.

* `uint32_t` / `uint64_t` values are natural numbers below `2 ^ 32` / `2 ^ 64`;
  the one operation that leaves the range on its own, `~`, is reduced modulo
  the width (`not32`, `not64`), and the byte counter wraps modulo `2 ^ 64`.
* The two global tables are lists; `init` starts from the zero-initialised
  arrays and stores into index `i` at each turn of the outer loop.
* A table lookup is `table[idx]?`: an index outside the array makes the
  update function return `none`, so that "every lookup is in range" is a
  statement about the model and not an assumption of it.
* `stdin` is the list of chunks handed back by the successive `fread` calls;
  once the list is used up every further `fread` returns `0`.
-/

namespace Crc

/-! ## The program -/

/-- The two global arrays `crc32_table` and `crc64_table`. -/
structure Tables where
  crc32_table : List Nat
  crc64_table : List Nat
deriving DecidableEq

/-- The constant `poly32` of `init`. -/
def poly32 : Nat := 0xEDB88320

/-- The constant `poly64` of `init`. -/
def poly64 : Nat := 0xC96C5795D7870F42

/-- Body of the inner loop `for (j = 0; j < 8; ++j)` of `init`: one round on
the pair of working registers `(crc32, crc64)`, both widths in the same turn. -/
def init_round (p32 p64 : Nat) (c : Nat × Nat) : Nat × Nat :=
  (if c.1 &&& 1 ≠ 0 then (c.1 >>> 1) ^^^ p32 else c.1 >>> 1,
   if c.2 &&& 1 ≠ 0 then (c.2 >>> 1) ^^^ p64 else c.2 >>> 1)

/-- Body of the outer loop `for (i = 0; i < 256; ++i)` of `init`: the registers
start as `i` converted to each width, go through the eight rounds, and are
stored at index `i` of the two tables. -/
def init_body (p32 p64 : Nat) (t : Tables) (i : Nat) : Tables :=
  let c := (List.range 8).foldl (fun c _ => init_round p32 p64 c) (i % 2 ^ 32, i % 2 ^ 64)
  { crc32_table := t.crc32_table.set i c.1
    crc64_table := t.crc64_table.set i c.2 }

/-- The function `init` with its two polynomial constants as parameters. The
tables start as the zero-initialised globals. -/
def initWith (p32 p64 : Nat) : Tables :=
  (List.range 256).foldl (init_body p32 p64) ⟨List.replicate 256 0, List.replicate 256 0⟩

/-- The function `init`. -/
def init : Tables := initWith poly32 poly64

/-- The table `crc32_table` after `init()`. -/
def crc32_table : List Nat := init.crc32_table

/-- The table `crc64_table` after `init()`. -/
def crc64_table : List Nat := init.crc64_table

/-- The operator `~` on a `uint32_t`. -/
def not32 (x : Nat) : Nat := (x % 2 ^ 32) ^^^ 0xFFFFFFFF

/-- The operator `~` on a `uint64_t`. -/
def not64 (x : Nat) : Nat := (x % 2 ^ 64) ^^^ 0xFFFFFFFFFFFFFFFF

/-- The function `crc32(buf, size, crc)`, reading the global table `tbl`. -/
def crc32 (tbl : List Nat) (buf : List Nat) (crc : Nat) : Option Nat :=
  (buf.foldlM
    (fun crc b => (tbl[b ^^^ (crc &&& 0xFF)]?).map (fun e => e ^^^ (crc >>> 8)))
    (not32 crc)).map not32

/-- The function `crc64(buf, size, crc)`, reading the global table `tbl`. -/
def crc64 (tbl : List Nat) (buf : List Nat) (crc : Nat) : Option Nat :=
  (buf.foldlM
    (fun crc b => (tbl[b ^^^ (crc &&& 0xFF)]?).map (fun e => e ^^^ (crc >>> 8)))
    (not64 crc)).map not64

/-- The local variables of `main` that outlive the read loop. -/
structure Session where
  value32 : Nat
  value64 : Nat
  total_size : Nat
deriving DecidableEq

/-- The loop `while (1)` of `main`. Each element of the first argument is what
one `fread` call put in `buf`; a zero-length read, or the end of the list,
leaves the loop. -/
def main_loop (t : Tables) : List (List Nat) → Session → Option Session
  | [], st => some st
  | buf :: rest, st =>
    if buf.length = 0 then some st
    else
      let total_size := (st.total_size + buf.length) % 2 ^ 64
      (crc32 t.crc32_table buf st.value32).bind fun value32 =>
      (crc64 t.crc64_table buf st.value64).bind fun value64 =>
      main_loop t rest { value32 := value32, value64 := value64, total_size := total_size }

/-- The function `main` up to the three `printf` calls: the values they print. -/
def main (stdin : List (List Nat)) : Option Session :=
  main_loop init stdin { value32 := 0, value64 := 0, total_size := 0 }

/-! ## Reference definitions used in the statements -/

/-- One round of table generation as the specification words it: if the least
significant bit of the register is 1, shift right by one and XOR with the
polynomial, otherwise only shift right by one. -/
def specRound (poly r : Nat) : Nat :=
  if r &&& 1 = 1 then (r >>> 1) ^^^ poly else r >>> 1

/-- Table entry `i` as the specification words it: eight rounds starting from
the zero-extension of `i`. -/
def specEntry (poly i : Nat) : Nat := (specRound poly)^[8] i

/-- The rule of the specification for one byte, `state := table[b XOR (state & 0xFF)]
XOR (state >> 8)`, reading a missing entry as `0`. -/
def specStep (tbl : List Nat) (state b : Nat) : Nat :=
  tbl.getD (b ^^^ (state &&& 0xFF)) 0 ^^^ (state >>> 8)

/-- The shift register after the bytes `bytes`, started from `start`, with no
complement anywhere. -/
def specRegister (tbl : List Nat) (start : Nat) (bytes : List Nat) : Nat :=
  bytes.foldl (specStep tbl) start

/-- Bitwise complement of a `w`-bit value. -/
def complW (w x : Nat) : Nat := (x % 2 ^ w) ^^^ (2 ^ w - 1)

/-- A list of bytes: every element is below 256. -/
def IsBytes (buf : List Nat) : Prop := ∀ b ∈ buf, b < 256

instance (buf : List Nat) : Decidable (IsBytes buf) := by
  unfold IsBytes; infer_instance

/-- A table of 256 `w`-bit words. -/
def IsTable (w : Nat) (tbl : List Nat) : Prop := tbl.length = 256 ∧ ∀ e ∈ tbl, e < 2 ^ w

/-- The update function of either width, with the width as a parameter; `crc32`
and `crc64` are its instances at 32 and 64 (`crc32_eq_update`, `crc64_eq_update`). -/
def update (w : Nat) (tbl : List Nat) (buf : List Nat) (crc : Nat) : Option Nat :=
  (buf.foldlM
    (fun crc b => (tbl[b ^^^ (crc &&& 0xFF)]?).map (fun e => e ^^^ (crc >>> 8)))
    (complW w crc)).map (complW w)

/-- The GF(2) polynomial a `w`-bit word stands for in reflected order: the
coefficient of `x ^ k` is bit `w - 1 - k` of the word. -/
noncomputable def wordPoly (w v : Nat) : Polynomial (ZMod 2) :=
  ∑ k in Finset.range w, if v.testBit (w - 1 - k) then Polynomial.X ^ k else 0

/-- The bit-reflected byte `i` as a GF(2) polynomial: the coefficient of
`x ^ (7 - j)` is bit `j` of `i`. -/
noncomputable def bytePoly (i : Nat) : Polynomial (ZMod 2) :=
  ∑ j in Finset.range 8, if i.testBit j then Polynomial.X ^ (7 - j) else 0

/-- The generator `G(x) = x ^ w + p(x)` of the reflected constant `poly`. -/
noncomputable def generator (w poly : Nat) : Polynomial (ZMod 2) :=
  Polynomial.X ^ w + wordPoly w poly

/-- The bitwise reference for one byte: XOR the byte into the low 8 bits of
the register, then eight times the round of `specRound`. -/
def bitwiseByte (poly r b : Nat) : Nat := (specRound poly)^[8] (r ^^^ b)

/-- The bit-at-a-time CRC of width `w`: complement the state, take every byte
in order through `bitwiseByte`, complement the result. -/
def bitwiseUpdate (w poly : Nat) (buf : List Nat) (s : Nat) : Nat :=
  complW w (buf.foldl (bitwiseByte poly) (complW w s))

/-- The `n` low bytes of `v`, least significant first (little-endian). -/
def leBytes : Nat → Nat → List Nat
  | 0, _ => []
  | n + 1, v => v % 256 :: leBytes n (v / 256)

/-- Bytewise XOR of three byte sequences. -/
def xor3 (A B C : List Nat) : List Nat :=
  List.zipWith (fun x y => x ^^^ y) (List.zipWith (fun x y => x ^^^ y) A B) C

/-! # Proofs -/

/-! ## Complement and range lemmas -/

theorem not32_eq_complW (x : Nat) : not32 x = complW 32 x := rfl

theorem not64_eq_complW (x : Nat) : not64 x = complW 64 x := rfl

theorem crc32_eq_update (tbl buf : List Nat) (crc : Nat) :
    crc32 tbl buf crc = update 32 tbl buf crc := rfl

theorem crc64_eq_update (tbl buf : List Nat) (crc : Nat) :
    crc64 tbl buf crc = update 64 tbl buf crc := rfl

theorem two_pow_sub_one_lt (w : Nat) : 2 ^ w - 1 < 2 ^ w :=
  Nat.sub_lt (Nat.two_pow_pos w) Nat.one_pos

theorem complW_lt (w x : Nat) : complW w x < 2 ^ w :=
  Nat.xor_lt_two_pow (Nat.mod_lt _ (Nat.two_pow_pos w)) (two_pow_sub_one_lt w)

theorem complW_complW {w x : Nat} (h : x < 2 ^ w) : complW w (complW w x) = x := by
  have h1 : (x % 2 ^ w ^^^ (2 ^ w - 1)) % 2 ^ w = x % 2 ^ w ^^^ (2 ^ w - 1) :=
    Nat.mod_eq_of_lt (complW_lt w x)
  unfold complW
  rw [h1, Nat.xor_assoc, Nat.xor_self, Nat.xor_zero, Nat.mod_eq_of_lt h]

theorem index_lt (b crc : Nat) (hb : b < 256) : b ^^^ (crc &&& 0xFF) < 256 := by
  have h1 : crc &&& 0xFF < 2 ^ 8 := Nat.and_lt_two_pow crc (by decide)
  have h2 : b < 2 ^ 8 := hb
  exact Nat.xor_lt_two_pow h2 h1

theorem specStep_lt {w : Nat} {tbl : List Nat} (ht : IsTable w tbl) {crc : Nat}
    (hc : crc < 2 ^ w) (b : Nat) : specStep tbl crc b < 2 ^ w := by
  unfold specStep
  apply Nat.xor_lt_two_pow
  · rw [List.getD_eq_getElem?_getD]
    cases hq : tbl[b ^^^ (crc &&& 0xFF)]? with
    | none => simp
    | some e =>
      simp only [Option.getD_some]
      exact ht.2 e (List.getElem?_mem hq)
  · rw [Nat.shiftRight_eq_div_pow]
    exact lt_of_le_of_lt (Nat.div_le_self crc (2 ^ 8)) hc

theorem specRegister_lt {w : Nat} {tbl : List Nat} (ht : IsTable w tbl) (buf : List Nat) :
    ∀ {crc : Nat}, crc < 2 ^ w → specRegister tbl crc buf < 2 ^ w := by
  induction buf with
  | nil => intro crc hc; simpa [specRegister] using hc
  | cons b bs ih =>
    intro crc hc
    have := ih (specStep_lt ht hc b)
    simpa [specRegister] using this

theorem specRegister_append (tbl : List Nat) (s : Nat) (xs ys : List Nat) :
    specRegister tbl s (xs ++ ys) = specRegister tbl (specRegister tbl s xs) ys := by
  simp [specRegister, List.foldl_append]

/-- With a 256-entry table and byte input, the checked loop never leaves the
table and computes the register of `specRegister`. -/
theorem foldlM_lookup {tbl : List Nat} (hlen : tbl.length = 256) :
    ∀ (buf : List Nat), IsBytes buf → ∀ (c : Nat),
      buf.foldlM
        (fun crc b => (tbl[b ^^^ (crc &&& 0xFF)]?).map (fun e => e ^^^ (crc >>> 8))) c
        = some (specRegister tbl c buf) := by
  intro buf
  induction buf with
  | nil => intro _ c; simp [specRegister]
  | cons b bs ih =>
    intro hb c
    have hb0 : b < 256 := hb b (List.mem_cons_self _ _)
    have hbs : IsBytes bs := fun x hx => hb x (List.mem_cons_of_mem _ hx)
    have hi : b ^^^ (c &&& 0xFF) < tbl.length := by rw [hlen]; exact index_lt b c hb0
    rw [List.foldlM_cons, List.getElem?_eq_getElem hi]
    simp only [Option.map_some', Option.bind_eq_bind, Option.some_bind]
    rw [ih hbs]
    simp [specRegister, specStep, List.getD_eq_getElem?_getD, List.getElem?_eq_getElem hi]

theorem update_eq {w : Nat} {tbl : List Nat} (hlen : tbl.length = 256) {buf : List Nat}
    (hb : IsBytes buf) (crc : Nat) :
    update w tbl buf crc = some (complW w (specRegister tbl (complW w crc) buf)) := by
  unfold update
  rw [foldlM_lookup hlen buf hb]
  rfl

theorem update_lt {w : Nat} {tbl buf : List Nat} {crc v : Nat}
    (h : update w tbl buf crc = some v) : v < 2 ^ w := by
  unfold update at h
  rw [Option.map_eq_some'] at h
  obtain ⟨a, _, rfl⟩ := h
  exact complW_lt w a

theorem update_append {w : Nat} {tbl : List Nat} (ht : IsTable w tbl) {xs ys : List Nat}
    (hx : IsBytes xs) (hy : IsBytes ys) (s : Nat) :
    (update w tbl xs s).bind (update w tbl ys) = update w tbl (xs ++ ys) s := by
  have hxy : IsBytes (xs ++ ys) := by
    intro b hb
    rcases List.mem_append.1 hb with h | h
    · exact hx b h
    · exact hy b h
  rw [update_eq ht.1 hx, update_eq ht.1 hxy, Option.some_bind, update_eq ht.1 hy,
    complW_complW (specRegister_lt ht xs (complW_lt w s)), specRegister_append]


/-! ## The tables built by `init` -/

theorem and_one_cases (r : Nat) : r &&& 1 = 0 ∨ r &&& 1 = 1 := by
  rw [Nat.and_one_is_mod]; omega

/-- The source tests `crc & 1` for non-zero, the specification for `= 1`: the same round. -/
theorem init_round_eq (p32 p64 : Nat) (c : Nat × Nat) :
    init_round p32 p64 c = (specRound p32 c.1, specRound p64 c.2) := by
  unfold init_round specRound
  rcases and_one_cases c.1 with h1 | h1 <;> rcases and_one_cases c.2 with h2 | h2 <;>
    simp [h1, h2]

/-- The interleaved inner loop runs the two registers independently. -/
theorem inner_loop_eq (p32 p64 : Nat) (l : List Nat) (a b : Nat) :
    l.foldl (fun c _ => init_round p32 p64 c) (a, b)
      = ((specRound p32)^[l.length] a, (specRound p64)^[l.length] b) := by
  induction l generalizing a b with
  | nil => rfl
  | cons x xs ih =>
    rw [List.foldl_cons, init_round_eq, ih]
    simp [Function.iterate_succ_apply]

theorem init_body_eq (p32 p64 : Nat) (t : Tables) (i : Nat) :
    init_body p32 p64 t i =
      { crc32_table := t.crc32_table.set i (specEntry p32 (i % 2 ^ 32))
        crc64_table := t.crc64_table.set i (specEntry p64 (i % 2 ^ 64)) } := by
  unfold init_body
  simp only [inner_loop_eq, List.length_range, specEntry]

/-- Storing `f i` at index `i` for `i = 0 .. n-1`, seen entry by entry. -/
theorem foldl_set_getElem? {α : Type} (f : Nat → α) (n : Nat) (l : List α) (k : Nat) :
    ((List.range n).foldl (fun t i => t.set i (f i)) l)[k]?
      = if k < n then (if k < l.length then some (f k) else none) else l[k]? := by
  induction n with
  | zero => simp
  | succ n ih =>
    rw [List.range_succ, List.foldl_append, List.foldl_cons, List.foldl_nil,
      List.getElem?_set, ih]
    have hlen : ((List.range n).foldl (fun t i => t.set i (f i)) l).length = l.length := by
      clear ih
      generalize List.range n = r
      induction r generalizing l with
      | nil => rfl
      | cons x xs ih2 => rw [List.foldl_cons, ih2, List.length_set]
    rw [hlen]
    by_cases h1 : n = k
    · subst h1; simp
    · by_cases h2 : k < n
      · have : k < n + 1 := by omega
        simp [h1, h2, this]
      · have : ¬ k < n + 1 := by omega
        simp [h1, h2, this]

theorem foldl_set_range {α : Type} (f : Nat → α) (n : Nat) (l : List α) (h : l.length = n) :
    (List.range n).foldl (fun t i => t.set i (f i)) l = (List.range n).map f := by
  apply List.ext_getElem?
  intro k
  rw [foldl_set_getElem?, h]
  by_cases hk : k < n
  · simp [hk, List.getElem?_range hk]
  · have h1 : l[k]? = none := List.getElem?_eq_none (by omega)
    have h2 : (List.map f (List.range n))[k]? = none :=
      List.getElem?_eq_none (by simp; omega)
    simp [hk, h1, h2]

theorem foldl_init_body (p32 p64 : Nat) (l : List Nat) (t : Tables) :
    l.foldl (init_body p32 p64) t =
      { crc32_table := l.foldl (fun a i => a.set i (specEntry p32 (i % 2 ^ 32))) t.crc32_table
        crc64_table := l.foldl (fun a i => a.set i (specEntry p64 (i % 2 ^ 64))) t.crc64_table } := by
  induction l generalizing t with
  | nil => rfl
  | cons x xs ih => rw [List.foldl_cons, ih, init_body_eq]; rfl

/-- The tables of `initWith`, entry by entry. -/
theorem initWith_eq (p32 p64 : Nat) :
    initWith p32 p64 =
      { crc32_table := (List.range 256).map (specEntry p32)
        crc64_table := (List.range 256).map (specEntry p64) } := by
  have e (w : Nat) (hw : 256 < 2 ^ w) (p : Nat) :
      (List.range 256).foldl (fun a i => a.set i (specEntry p (i % 2 ^ w)))
        (List.replicate 256 0) = (List.range 256).map (specEntry p) := by
    rw [foldl_set_range (fun i => specEntry p (i % 2 ^ w)) 256 _ (List.length_replicate 256 0)]
    apply List.map_congr_left
    intro i hi
    rw [Nat.mod_eq_of_lt (lt_trans (List.mem_range.1 hi) hw)]
  unfold initWith
  rw [foldl_init_body, e 32 (by decide) p32, e 64 (by decide) p64]

theorem initWith_crc32_getElem? (p32 p64 : Nat) {i : Nat} (hi : i < 256) :
    (initWith p32 p64).crc32_table[i]? = some (specEntry p32 i) := by
  rw [initWith_eq]; simp [List.getElem?_range hi, hi]

theorem initWith_crc64_getElem? (p32 p64 : Nat) {i : Nat} (hi : i < 256) :
    (initWith p32 p64).crc64_table[i]? = some (specEntry p64 i) := by
  rw [initWith_eq]; simp [List.getElem?_range hi, hi]

theorem specRound_lt {w p r : Nat} (hp : p < 2 ^ w) (hr : r < 2 ^ w) :
    specRound p r < 2 ^ w := by
  have h1 : r >>> 1 < 2 ^ w := by
    rw [Nat.shiftRight_eq_div_pow]
    exact lt_of_le_of_lt (Nat.div_le_self r (2 ^ 1)) hr
  unfold specRound
  split
  · exact Nat.xor_lt_two_pow h1 hp
  · exact h1

theorem specRound_iterate_lt {w p : Nat} (hp : p < 2 ^ w) (n : Nat) {r : Nat} (hr : r < 2 ^ w) :
    (specRound p)^[n] r < 2 ^ w := by
  induction n generalizing r with
  | zero => exact hr
  | succ n ih => rw [Function.iterate_succ_apply]; exact ih (specRound_lt hp hr)

theorem isTable_map_specEntry {w p : Nat} (hw : 8 ≤ w) (hp : p < 2 ^ w) :
    IsTable w ((List.range 256).map (specEntry p)) := by
  refine ⟨by simp, ?_⟩
  intro e he
  obtain ⟨i, hi, rfl⟩ := List.mem_map.1 he
  have h256 : i < 2 ^ w :=
    lt_of_lt_of_le (List.mem_range.1 hi) (Nat.pow_le_pow_right (by decide) hw : 2 ^ 8 ≤ 2 ^ w)
  exact specRound_iterate_lt hp 8 h256

theorem isTable_crc32_table : IsTable 32 crc32_table := by
  unfold crc32_table init
  rw [initWith_eq]
  exact isTable_map_specEntry (by decide) (by decide)

theorem isTable_crc64_table : IsTable 64 crc64_table := by
  unfold crc64_table init
  rw [initWith_eq]
  exact isTable_map_specEntry (by decide) (by decide)


/-! ## Chunked calls -/

theorem update_nil {w : Nat} (tbl : List Nat) {s : Nat} (hs : s < 2 ^ w) :
    update w tbl [] s = some s := by
  simp [update, complW_complW hs]

theorem isBytes_join {chunks : List (List Nat)} (hb : ∀ c ∈ chunks, IsBytes c) :
    IsBytes chunks.flatten := by
  intro b hbm
  obtain ⟨d, hd, hbd⟩ := List.mem_flatten.1 hbm
  exact hb d hd b hbd

/-- Feeding the chunks one call after another is one call on their concatenation. -/
theorem update_chunks {w : Nat} {tbl : List Nat} (ht : IsTable w tbl) :
    ∀ (chunks : List (List Nat)), (∀ c ∈ chunks, IsBytes c) → ∀ {s : Nat}, s < 2 ^ w →
      chunks.foldlM (fun st c => update w tbl c st) s = update w tbl chunks.flatten s := by
  intro chunks
  induction chunks with
  | nil => intro _ s hs; simp [update_nil tbl hs]
  | cons c cs ih =>
    intro hb s hs
    have hc : IsBytes c := hb c (List.mem_cons_self _ _)
    have hcs : ∀ d ∈ cs, IsBytes d := fun d hd => hb d (List.mem_cons_of_mem _ hd)
    have hj : IsBytes cs.flatten := isBytes_join hcs
    rw [List.foldlM_cons, List.flatten_cons, ← update_append ht hc hj]
    cases hv : update w tbl c s with
    | none => rfl
    | some v => exact ih hcs (update_lt hv)

/-! ## The read loop of `main` -/

theorem main_loop_total {t : Tables} (h32 : t.crc32_table.length = 256)
    (h64 : t.crc64_table.length = 256) (rest : List (List Nat)) :
    ∀ (chunks : List (List Nat)), (∀ c ∈ chunks, c ≠ [] ∧ IsBytes c) → ∀ (st : Session),
      st.total_size < 2 ^ 64 → ∃ st1, main_loop t (chunks ++ [] :: rest) st = some st1 ∧
        st1.total_size = (st.total_size + (chunks.map List.length).sum) % 2 ^ 64 ∧
        (chunks = [] → st1 = st) := by
  intro chunks
  induction chunks with
  | nil =>
    intro _ st hst
    refine ⟨st, by simp [main_loop], ?_, fun _ => rfl⟩
    rw [List.map_nil, List.sum_nil, Nat.add_zero, Nat.mod_eq_of_lt hst]
  | cons c cs ih =>
    intro hb st _
    obtain ⟨hne, hc⟩ := hb c (List.mem_cons_self _ _)
    have hcs : ∀ d ∈ cs, d ≠ [] ∧ IsBytes d := fun d hd => hb d (List.mem_cons_of_mem _ hd)
    have hlen : ¬ c.length = 0 := fun h => hne (List.length_eq_zero.1 h)
    rw [List.cons_append, main_loop, if_neg hlen, crc32_eq_update, crc64_eq_update,
      update_eq h32 hc, update_eq h64 hc]
    simp only [Option.some_bind]
    obtain ⟨st1, h1, h2, _⟩ := ih hcs
      { value32 := complW 32 (specRegister t.crc32_table (complW 32 st.value32) c)
        value64 := complW 64 (specRegister t.crc64_table (complW 64 st.value64) c)
        total_size := (st.total_size + c.length) % 2 ^ 64 }
      (Nat.mod_lt _ (Nat.two_pow_pos 64))
    refine ⟨st1, h1, ?_, fun h => by simp at h⟩
    rw [h2]
    simp only [List.map_cons, List.sum_cons]
    rw [Nat.mod_add_mod, Nat.add_assoc]


/-! ## Claims -/

/-- C1 (chunking independence): for both widths, with the tables built by
`init`, for every in-range initial state and every finite list of byte chunks
(possibly none, possibly empty ones), the one call on the concatenation
returns a value, and calling the update function chunk after chunk, each call
on the value returned by the previous one, returns that same value. -/
theorem C1_chunking_independence (s32 s64 : Nat) (chunks : List (List Nat))
    (h32 : s32 < 2 ^ 32) (h64 : s64 < 2 ^ 64) (hb : ∀ c ∈ chunks, IsBytes c) :
    (∃ v, crc32 crc32_table chunks.flatten s32 = some v ∧
        chunks.foldlM (fun st c => crc32 crc32_table c st) s32 = some v) ∧
    (∃ v, crc64 crc64_table chunks.flatten s64 = some v ∧
        chunks.foldlM (fun st c => crc64 crc64_table c st) s64 = some v) := by
  have hj := isBytes_join hb
  constructor
  · refine ⟨_, update_eq isTable_crc32_table.1 hj s32, ?_⟩
    rw [← update_eq isTable_crc32_table.1 hj s32]
    exact update_chunks isTable_crc32_table chunks hb h32
  · refine ⟨_, update_eq isTable_crc64_table.1 hj s64, ?_⟩
    rw [← update_eq isTable_crc64_table.1 hj s64]
    exact update_chunks isTable_crc64_table chunks hb h64

/-- Witness for C1: the bytes "123" fed as "12", an empty chunk, "3". -/
theorem C1_chunking_independence_witness :
    ((0 : Nat) < 2 ^ 32 ∧ (0 : Nat) < 2 ^ 64 ∧ ∀ c ∈ [[0x31, 0x32], [], [0x33]], IsBytes c) ∧
    (∃ v, crc32 crc32_table [[0x31, 0x32], [], [0x33]].flatten 0 = some v ∧
        [[0x31, 0x32], [], [0x33]].foldlM (fun st c => crc32 crc32_table c st) 0 = some v) ∧
    (∃ v, crc64 crc64_table [[0x31, 0x32], [], [0x33]].flatten 0 = some v ∧
        [[0x31, 0x32], [], [0x33]].foldlM (fun st c => crc64 crc64_table c st) 0 = some v) :=
  ⟨⟨by decide, by decide, by decide⟩,
    C1_chunking_independence 0 0 [[0x31, 0x32], [], [0x33]] (by decide) (by decide) (by decide)⟩

set_option maxRecDepth 100000 in
/-- C2 (known vector): after `init`, `crc32` on the nine ASCII bytes
"123456789" with initial state 0 returns `0xCBF43926`. -/
theorem C2_known_vector_crc32 :
    crc32 crc32_table [0x31, 0x32, 0x33, 0x34, 0x35, 0x36, 0x37, 0x38, 0x39] 0
      = some 0xCBF43926 := by
  rfl

/-- C3 (visible checksum is the complemented register): for both widths, for
every list of byte chunks fed call after call starting from state 0, the final
returned value is the bitwise complement of the register that starts all-ones
and takes `state := table[b XOR (state & 0xFF)] XOR (state >> 8)` for every
byte of the concatenation, with no complement at the chunk boundaries. -/
theorem C3_complemented_register (chunks : List (List Nat)) (hb : ∀ c ∈ chunks, IsBytes c) :
    chunks.foldlM (fun st c => crc32 crc32_table c st) 0
      = some (complW 32 (specRegister crc32_table 0xFFFFFFFF chunks.flatten)) ∧
    chunks.foldlM (fun st c => crc64 crc64_table c st) 0
      = some (complW 64 (specRegister crc64_table 0xFFFFFFFFFFFFFFFF chunks.flatten)) := by
  have hj := isBytes_join hb
  constructor
  · have h := update_chunks isTable_crc32_table chunks hb (show 0 < 2 ^ 32 by decide)
    rw [update_eq isTable_crc32_table.1 hj] at h
    exact h
  · have h := update_chunks isTable_crc64_table chunks hb (show 0 < 2 ^ 64 by decide)
    rw [update_eq isTable_crc64_table.1 hj] at h
    exact h

/-- Witness for C3: the bytes "123" fed as "12", an empty chunk, "3". -/
theorem C3_complemented_register_witness :
    (∀ c ∈ [[0x31, 0x32], [], [0x33]], IsBytes c) ∧
    [[0x31, 0x32], [], [0x33]].foldlM (fun st c => crc32 crc32_table c st) 0
      = some (complW 32 (specRegister crc32_table 0xFFFFFFFF [[0x31, 0x32], [], [0x33]].flatten)) ∧
    [[0x31, 0x32], [], [0x33]].foldlM (fun st c => crc64 crc64_table c st) 0
      = some (complW 64
          (specRegister crc64_table 0xFFFFFFFFFFFFFFFF [[0x31, 0x32], [], [0x33]].flatten)) :=
  ⟨by decide, C3_complemented_register [[0x31, 0x32], [], [0x33]] (by decide)⟩

/-- C4 (empty-chunk identity): for both widths, the update function on the
empty byte sequence returns its in-range state unchanged; consequently, for
every byte sequence `S` and state `s`, the call on `S` returns a value `v`
and the call on the empty sequence with state `v` returns `v` again. -/
theorem C4_empty_chunk_identity (s32 s64 : Nat) (S : List Nat)
    (h32 : s32 < 2 ^ 32) (h64 : s64 < 2 ^ 64) (hS : IsBytes S) :
    (crc32 crc32_table [] s32 = some s32 ∧
      ∃ v, crc32 crc32_table S s32 = some v ∧ crc32 crc32_table [] v = some v) ∧
    (crc64 crc64_table [] s64 = some s64 ∧
      ∃ v, crc64 crc64_table S s64 = some v ∧ crc64 crc64_table [] v = some v) := by
  refine ⟨⟨update_nil _ h32, _, update_eq isTable_crc32_table.1 hS s32, ?_⟩,
    ⟨update_nil _ h64, _, update_eq isTable_crc64_table.1 hS s64, ?_⟩⟩
  · exact update_nil _ (complW_lt 32 _)
  · exact update_nil _ (complW_lt 64 _)

/-- Witness for C4: states 5 and 7, the byte sequence "12". -/
theorem C4_empty_chunk_identity_witness :
    ((5 : Nat) < 2 ^ 32 ∧ (7 : Nat) < 2 ^ 64 ∧ IsBytes [0x31, 0x32]) ∧
    (crc32 crc32_table [] 5 = some 5 ∧
      ∃ v, crc32 crc32_table [0x31, 0x32] 5 = some v ∧ crc32 crc32_table [] v = some v) ∧
    (crc64 crc64_table [] 7 = some 7 ∧
      ∃ v, crc64 crc64_table [0x31, 0x32] 7 = some v ∧ crc64 crc64_table [] v = some v) :=
  ⟨⟨by decide, by decide, by decide⟩,
    C4_empty_chunk_identity 5 7 [0x31, 0x32] (by decide) (by decide) (by decide)⟩

/-- C5 (empty input): when the first read returns a zero-length chunk (or the
stream has nothing at all), `main` ends with `total_size = 0`, `value32 = 0`
and `value64 = 0`, whatever later reads would have returned. -/
theorem C5_empty_input (rest : List (List Nat)) :
    main ([] :: rest) = some { value32 := 0, value64 := 0, total_size := 0 } ∧
    main [] = some { value32 := 0, value64 := 0, total_size := 0 } := by
  constructor
  · simp [main, main_loop]
  · simp [main, main_loop]


/-- C6 (table construction): for every `i` in `0..255`, after `init`,
`crc32_table[i]` (resp. `crc64_table[i]`) is the value reached from `i` by
eight rounds `r := if (r & 1) = 1 then (r >> 1) XOR poly else (r >> 1)` with
`poly = 0xEDB88320` (resp. `0xC96C5795D7870F42`); each table has exactly 256
entries; and neither table depends on the constant of the other width that
shares its loop. -/
theorem C6_table_construction (i : Nat) (hi : i < 256) :
    (crc32_table[i]? = some (specEntry 0xEDB88320 i) ∧
      crc64_table[i]? = some (specEntry 0xC96C5795D7870F42 i)) ∧
    (crc32_table.length = 256 ∧ crc64_table.length = 256) ∧
    (∀ q, (initWith 0xEDB88320 q).crc32_table = crc32_table) ∧
    (∀ q, (initWith q 0xC96C5795D7870F42).crc64_table = crc64_table) := by
  refine ⟨⟨initWith_crc32_getElem? poly32 poly64 hi, initWith_crc64_getElem? poly32 poly64 hi⟩,
    ⟨isTable_crc32_table.1, isTable_crc64_table.1⟩, ?_, ?_⟩
  · intro q
    unfold crc32_table init poly32
    rw [initWith_eq, initWith_eq]
  · intro q
    unfold crc64_table init poly64
    rw [initWith_eq, initWith_eq]

/-- Witness for C6: the entry at index 1. -/
theorem C6_table_construction_witness :
    (1 < 256) ∧
    (crc32_table[1]? = some (specEntry 0xEDB88320 1) ∧
      crc64_table[1]? = some (specEntry 0xC96C5795D7870F42 1)) :=
  ⟨by decide, (C6_table_construction 1 (by decide)).1⟩

/-- C7 (entry 0 is 0 for any polynomial): for every pair of polynomial
constants put in place of `poly32` and `poly64`, both tables built by the
`init` algorithm have entry 0 equal to 0; in particular `crc32_table[0] = 0`
and `crc64_table[0] = 0`. -/
theorem C7_entry_zero (p32 p64 : Nat) :
    ((initWith p32 p64).crc32_table[0]? = some 0 ∧
      (initWith p32 p64).crc64_table[0]? = some 0) ∧
    (crc32_table[0]? = some 0 ∧ crc64_table[0]? = some 0) := by
  have h0 : ∀ p, specEntry p 0 = 0 := by
    intro p
    simp [specEntry, specRound]
  have h : ∀ a b, (initWith a b).crc32_table[0]? = some 0 ∧
      (initWith a b).crc64_table[0]? = some 0 := by
    intro a b
    rw [initWith_crc32_getElem? a b (by decide), initWith_crc64_getElem? a b (by decide),
      h0, h0]
    exact ⟨rfl, rfl⟩
  exact ⟨h p32 p64, h poly32 poly64⟩

/-- C8 (the checksum computation cannot fail): for every byte `b` and every
state `crc`, the index `b XOR (crc & 0xFF)` is below 256, which is the length
of both tables; and for every byte sequence and every initial state, `crc32`
and `crc64` return a value (no lookup leaves the table). -/
theorem C8_cannot_fail (b crc : Nat) (buf : List Nat) (s32 s64 : Nat)
    (hb : b < 256) (hbuf : IsBytes buf) :
    (b ^^^ (crc &&& 0xFF) < 256 ∧ crc32_table.length = 256 ∧ crc64_table.length = 256) ∧
    (∃ v, crc32 crc32_table buf s32 = some v) ∧
    (∃ v, crc64 crc64_table buf s64 = some v) :=
  ⟨⟨index_lt b crc hb, isTable_crc32_table.1, isTable_crc64_table.1⟩,
    ⟨_, update_eq isTable_crc32_table.1 hbuf s32⟩,
    ⟨_, update_eq isTable_crc64_table.1 hbuf s64⟩⟩

/-- Witness for C8: byte `0xFF`, all-ones states, the buffer `[0, 0xFF]`. -/
theorem C8_cannot_fail_witness :
    ((0xFF : Nat) < 256 ∧ IsBytes [0, 0xFF]) ∧
    (0xFF ^^^ (0xFFFFFFFF &&& 0xFF) < 256 ∧ crc32_table.length = 256 ∧
      crc64_table.length = 256) ∧
    (∃ v, crc32 crc32_table [0, 0xFF] 0xFFFFFFFF = some v) ∧
    (∃ v, crc64 crc64_table [0, 0xFF] 0xFFFFFFFFFFFFFFFF = some v) :=
  ⟨⟨by decide, by decide⟩,
    C8_cannot_fail 0xFF 0xFFFFFFFF [0, 0xFF] 0xFFFFFFFF 0xFFFFFFFFFFFFFFFF (by decide) (by decide)⟩

/-- C9 (total byte count): for every sequence of non-empty byte chunks
delivered before the terminating zero-length chunk, `main` leaves its loop
with `total_size` equal to the sum of the chunk lengths modulo `2 ^ 64`; this
is the length of the delivered byte stream modulo `2 ^ 64`, hence the same
for every partition of that stream into chunks. -/
theorem C9_total_byte_count (chunks rest : List (List Nat))
    (h : ∀ c ∈ chunks, c ≠ [] ∧ IsBytes c) :
    ∃ st, main (chunks ++ [] :: rest) = some st ∧
      st.total_size = (chunks.map List.length).sum % 2 ^ 64 ∧
      st.total_size = chunks.flatten.length % 2 ^ 64 := by
  obtain ⟨st, h1, h2, _⟩ :=
    main_loop_total isTable_crc32_table.1 isTable_crc64_table.1 rest chunks h
      { value32 := 0, value64 := 0, total_size := 0 } (by decide)
  refine ⟨st, h1, ?_, ?_⟩
  · rw [h2, Nat.zero_add]
  · rw [h2, Nat.zero_add, List.length_flatten]

/-- Witness for C9: the chunks "12" and "3", then end of stream. -/
theorem C9_total_byte_count_witness :
    (∀ c ∈ [[0x31, 0x32], [0x33]], c ≠ [] ∧ IsBytes c) ∧
    ∃ st, main ([[0x31, 0x32], [0x33]] ++ [] :: []) = some st ∧
      st.total_size = ([[0x31, 0x32], [0x33]].map List.length).sum % 2 ^ 64 ∧
      st.total_size = [[0x31, 0x32], [0x33]].flatten.length % 2 ^ 64 :=
  ⟨by decide, C9_total_byte_count [[0x31, 0x32], [0x33]] [] (by decide)⟩


/-! ## Table entries as remainders over GF(2) -/

section Remainder

open Polynomial

theorem poly_add_self (a : (ZMod 2)[X]) : a + a = 0 := CharTwo.add_self_eq_zero a

theorem wordPoly_xor (w a b : Nat) :
    wordPoly w (a ^^^ b) = wordPoly w a + wordPoly w b := by
  unfold wordPoly
  rw [← Finset.sum_add_distrib]
  apply Finset.sum_congr rfl
  intro k _
  rw [Nat.testBit_xor]
  cases a.testBit (w - 1 - k) <;> cases b.testBit (w - 1 - k) <;> simp [poly_add_self]

theorem wordPoly_degree_lt (w v : Nat) : (wordPoly w v).degree < w := by
  unfold wordPoly
  refine lt_of_le_of_lt (Polynomial.degree_sum_le _ _) ?_
  refine (Finset.sup_lt_iff (WithBot.bot_lt_coe w)).2 ?_
  intro k hk
  show (if v.testBit (w - 1 - k) = true then (X : (ZMod 2)[X]) ^ k else 0).degree < (w : WithBot Nat)
  split
  · rw [Polynomial.degree_X_pow]
    exact_mod_cast Finset.mem_range.1 hk
  · rw [Polynomial.degree_zero]
    exact WithBot.bot_lt_coe w

theorem generator_monic (w poly : Nat) : (generator w poly).Monic :=
  Polynomial.monic_X_pow_add (wordPoly_degree_lt w poly)

theorem generator_degree (w poly : Nat) : (generator w poly).degree = w := by
  unfold generator
  rw [Polynomial.degree_add_eq_left_of_degree_lt, Polynomial.degree_X_pow]
  rw [Polynomial.degree_X_pow]
  exact wordPoly_degree_lt w poly

/-- Multiplying by `x` moves every bit one place down; the bit shifted out is
the coefficient of `x ^ w`. -/
theorem X_mul_wordPoly {w r : Nat} (hr : r < 2 ^ (w + 1)) :
    X * wordPoly (w + 1) r
      = wordPoly (w + 1) (r >>> 1) + (if r.testBit 0 then X ^ (w + 1) else 0) := by
  unfold wordPoly
  rw [Finset.sum_range_succ, Finset.sum_range_succ', mul_add, Finset.mul_sum]
  have hz : (r >>> 1).testBit (w + 1 - 1 - 0) = false := by
    rw [Nat.testBit_shiftRight]
    have : 1 + (w + 1 - 1 - 0) = w + 1 := by omega
    rw [this]
    exact Nat.testBit_lt_two_pow hr
  rw [hz]
  have hs : ∀ k ∈ Finset.range w,
      X * (if r.testBit (w + 1 - 1 - k) then (X : (ZMod 2)[X]) ^ k else 0)
        = if (r >>> 1).testBit (w + 1 - 1 - (k + 1)) then X ^ (k + 1) else 0 := by
    intro k hk
    have hk2 := Finset.mem_range.1 hk
    rw [Nat.testBit_shiftRight]
    have : 1 + (w + 1 - 1 - (k + 1)) = w + 1 - 1 - k := by omega
    rw [this]
    split
    · rw [pow_succ, mul_comm]
    · rw [mul_zero]
  rw [Finset.sum_congr rfl hs]
  have hl : w + 1 - 1 - w = 0 := by omega
  rw [hl]
  split <;> simp [pow_succ, mul_comm]

theorem testBit_zero_iff (r : Nat) : r.testBit 0 = true ↔ r &&& 1 = 1 := by
  rw [Nat.testBit_zero, Nat.and_one_is_mod]; simp

/-- One round multiplies the register, read as a polynomial, by `x` modulo the generator. -/
theorem specRound_dvd {w p r : Nat} (hr : r < 2 ^ (w + 1)) :
    generator (w + 1) p ∣ X * wordPoly (w + 1) r - wordPoly (w + 1) (specRound p r) := by
  rw [X_mul_wordPoly hr]
  unfold specRound
  by_cases h : r &&& 1 = 1
  · have hb : r.testBit 0 = true := (testBit_zero_iff r).2 h
    rw [if_pos h, if_pos hb, wordPoly_xor]
    have : wordPoly (w + 1) (r >>> 1) + X ^ (w + 1)
        - (wordPoly (w + 1) (r >>> 1) + wordPoly (w + 1) p) = generator (w + 1) p := by
      unfold generator
      rw [add_sub_add_left_eq_sub, sub_eq_add_neg, CharTwo.neg_eq]
    rw [this]
  · have hb : ¬ r.testBit 0 = true := fun hb => h ((testBit_zero_iff r).1 hb)
    rw [if_neg h, if_neg hb, add_zero, sub_self]
    exact dvd_zero _

theorem specRound_iterate_dvd {w p : Nat} (hp : p < 2 ^ (w + 1)) (n : Nat) :
    ∀ {r : Nat}, r < 2 ^ (w + 1) →
      generator (w + 1) p ∣
        X ^ n * wordPoly (w + 1) r - wordPoly (w + 1) ((specRound p)^[n] r) := by
  induction n with
  | zero => intro r _; simp
  | succ n ih =>
    intro r hr
    have h1 := specRound_dvd (p := p) hr
    have h2 := ih (specRound_lt hp hr)
    rw [Function.iterate_succ_apply]
    have : X ^ (n + 1) * wordPoly (w + 1) r - wordPoly (w + 1) ((specRound p)^[n] (specRound p r))
        = X ^ n * (X * wordPoly (w + 1) r - wordPoly (w + 1) (specRound p r))
          + (X ^ n * wordPoly (w + 1) (specRound p r)
              - wordPoly (w + 1) ((specRound p)^[n] (specRound p r))) := by
      ring
    rw [this]
    exact dvd_add (Dvd.dvd.mul_left h1 _) h2

/-- A byte placed in a `w`-bit register is `x ^ (w - 8)` times the reflected byte. -/
theorem X_pow_mul_wordPoly_byte {w i : Nat} (hw : 8 ≤ w) (hi : i < 256) :
    X ^ 8 * wordPoly w i = bytePoly i * X ^ w := by
  have hrefl : wordPoly w i = ∑ j in Finset.range w, if i.testBit j then X ^ (w - 1 - j) else 0 := by
    unfold wordPoly
    rw [← Finset.sum_range_reflect]
    apply Finset.sum_congr rfl
    intro j hj
    have hj2 := Finset.mem_range.1 hj
    have : w - 1 - (w - 1 - j) = j := by omega
    rw [this]
  have hsub : Finset.range 8 ⊆ Finset.range w := Finset.range_subset.2 hw
  rw [hrefl, ← Finset.sum_subset hsub, Finset.mul_sum]
  · unfold bytePoly
    rw [Finset.sum_mul]
    apply Finset.sum_congr rfl
    intro j hj
    have hj2 := Finset.mem_range.1 hj
    split
    · rw [← pow_add, ← pow_add]
      congr 1
      omega
    · rw [mul_zero, zero_mul]
  · intro j _ hj
    have hj2 : 8 ≤ j := by
      by_contra hlt
      exact hj (Finset.mem_range.2 (by omega))
    have hlt : i < 2 ^ j :=
      lt_of_lt_of_le hi (Nat.pow_le_pow_right (by decide) hj2 : 2 ^ 8 ≤ 2 ^ j)
    rw [Nat.testBit_lt_two_pow hlt]
    simp

/-- Entry `i` of a table generated with `p`, read as a polynomial, is the
remainder of the reflected byte times `x ^ w` by the generator. -/
theorem specEntry_remainder {w p i : Nat} (hw : 7 ≤ w) (hp : p < 2 ^ (w + 1)) (hi : i < 256) :
    wordPoly (w + 1) (specEntry p i)
      = Polynomial.modByMonic (bytePoly i * X ^ (w + 1)) (generator (w + 1) p) := by
  have hi2 : i < 2 ^ (w + 1) :=
    lt_of_lt_of_le hi (Nat.pow_le_pow_right (by decide) (by omega) : 2 ^ 8 ≤ 2 ^ (w + 1))
  unfold specEntry
  have hd := specRound_iterate_dvd hp 8 hi2
  rw [X_pow_mul_wordPoly_byte (by omega) hi] at hd
  rw [Polynomial.modByMonic_eq_of_dvd_sub (generator_monic (w + 1) p) hd]
  symm
  rw [Polynomial.modByMonic_eq_self_iff (generator_monic (w + 1) p), generator_degree]
  exact wordPoly_degree_lt (w + 1) _

end Remainder

/-- C10 (table entries are polynomial-division remainders): for both widths
`W`, with `G(x) = x ^ W + p(x)` the generator of the reflected constant, and
for every `i` in `0..255`, the table built by `init` has an entry at `i`
which, read as the GF(2) polynomial whose coefficient of `x ^ k` is bit
`W - 1 - k`, is the remainder of `b_i(x) * x ^ W` divided by `G(x)`, where
`b_i` is the bit-reflected byte `i`. -/
theorem C10_entries_are_remainders (i : Nat) (hi : i < 256) :
    (∃ e, crc32_table[i]? = some e ∧
      wordPoly 32 e
        = Polynomial.modByMonic (bytePoly i * Polynomial.X ^ 32) (generator 32 0xEDB88320)) ∧
    (∃ e, crc64_table[i]? = some e ∧
      wordPoly 64 e
        = Polynomial.modByMonic (bytePoly i * Polynomial.X ^ 64)
            (generator 64 0xC96C5795D7870F42)) :=
  ⟨⟨_, initWith_crc32_getElem? poly32 poly64 hi,
      specEntry_remainder (w := 31) (by decide) (by decide) hi⟩,
    ⟨_, initWith_crc64_getElem? poly32 poly64 hi,
      specEntry_remainder (w := 63) (by decide) (by decide) hi⟩⟩

/-- Witness for C10: the entry at index 1. -/
theorem C10_entries_are_remainders_witness :
    (1 < 256) ∧
    (∃ e, crc32_table[1]? = some e ∧
      wordPoly 32 e
        = Polynomial.modByMonic (bytePoly 1 * Polynomial.X ^ 32) (generator 32 0xEDB88320)) :=
  ⟨by decide, (C10_entries_are_remainders 1 (by decide)).1⟩

/-! ## The round is linear over XOR -/

theorem xor_xor_xor_comm (a b c d : Nat) : (a ^^^ b) ^^^ (c ^^^ d) = (a ^^^ c) ^^^ (b ^^^ d) := by
  apply Nat.eq_of_testBit_eq
  intro i
  simp only [Nat.testBit_xor]
  cases a.testBit i <;> cases b.testBit i <;> cases c.testBit i <;> cases d.testBit i <;> rfl

/-- The round as a shift XOR a conditional polynomial. -/
theorem specRound_eq (p r : Nat) :
    specRound p r = (r >>> 1) ^^^ (if r % 2 = 1 then p else 0) := by
  unfold specRound
  rw [Nat.and_one_is_mod]
  split <;> simp

theorem shiftRight_xor (a b k : Nat) : (a ^^^ b) >>> k = (a >>> k) ^^^ (b >>> k) := by
  apply Nat.eq_of_testBit_eq
  intro i
  simp only [Nat.testBit_xor, Nat.testBit_shiftRight]

theorem specRound_xor (p a b : Nat) :
    specRound p (a ^^^ b) = specRound p a ^^^ specRound p b := by
  rw [specRound_eq, specRound_eq, specRound_eq, shiftRight_xor,
    xor_xor_xor_comm (a >>> 1)]
  congr 1
  rw [Nat.xor_mod_two_eq]
  rcases Nat.mod_two_eq_zero_or_one a with ha | ha <;>
    rcases Nat.mod_two_eq_zero_or_one b with hb | hb <;>
    simp [ha, hb, Nat.add_mod]

theorem specRound_iterate_xor (p : Nat) (n : Nat) (a b : Nat) :
    (specRound p)^[n] (a ^^^ b) = (specRound p)^[n] a ^^^ (specRound p)^[n] b := by
  induction n generalizing a b with
  | zero => rfl
  | succ n ih => rw [Function.iterate_succ_apply, Function.iterate_succ_apply,
      Function.iterate_succ_apply, specRound_xor, ih]

/-- Rounds on a register whose low bits are zero only shift. -/
theorem specRound_iterate_shiftLeft (p : Nat) (n : Nat) (y : Nat) :
    (specRound p)^[n] (y <<< n) = y := by
  induction n with
  | zero => rfl
  | succ n ih =>
    rw [Function.iterate_succ_apply, specRound_eq, Nat.shiftLeft_succ]
    have h1 : (2 * (y <<< n)) % 2 = 0 := Nat.mul_mod_right 2 _
    have h2 : (2 * (y <<< n)) >>> 1 = y <<< n := by
      rw [Nat.shiftRight_one]; omega
    rw [h1, h2]
    simpa using ih

theorem split_low_byte (x : Nat) : (x &&& 0xFF) ^^^ ((x >>> 8) <<< 8) = x := by
  apply Nat.eq_of_testBit_eq
  intro i
  have h255 : (0xFF : Nat) = 2 ^ 8 - 1 := by decide
  rw [Nat.testBit_xor, Nat.testBit_and, h255, Nat.testBit_two_pow_sub_one,
    Nat.testBit_shiftLeft, Nat.testBit_shiftRight]
  by_cases h : i < 8
  · have h2 : ¬ i ≥ 8 := by omega
    simp [h, h2]
  · have h2 : i ≥ 8 := by omega
    have h3 : 8 + (i - 8) = i := by omega
    simp [h, h2, h3]

/-- Eight rounds on a register are eight rounds on its low byte, XOR the rest
shifted down: the identity behind the table lookup. -/
theorem rounds_eq_lookup (p r b : Nat) :
    (specRound p)^[8] (b ^^^ (r &&& 0xFF)) ^^^ (r >>> 8) = (specRound p)^[8] (r ^^^ b) := by
  have h1 : r >>> 8 = (specRound p)^[8] ((r >>> 8) <<< 8) :=
    (specRound_iterate_shiftLeft p 8 (r >>> 8)).symm
  rw [h1, ← specRound_iterate_xor, Nat.xor_assoc, split_low_byte, Nat.xor_comm]

/-- With the generated table, the table-driven step is the bitwise byte step. -/
theorem specStep_eq_bitwiseByte (p r b : Nat) (hb : b < 256) :
    specStep ((List.range 256).map (specEntry p)) r b = bitwiseByte p r b := by
  have hi := index_lt b r hb
  unfold specStep bitwiseByte
  rw [List.getD_eq_getElem?_getD, List.getElem?_map, List.getElem?_range hi]
  simp only [Option.map_some', Option.getD_some]
  exact rounds_eq_lookup p r b

theorem specRegister_eq_bitwise (p : Nat) (buf : List Nat) (hb : IsBytes buf) (r : Nat) :
    specRegister ((List.range 256).map (specEntry p)) r buf = buf.foldl (bitwiseByte p) r := by
  induction buf generalizing r with
  | nil => rfl
  | cons b bs ih =>
    have hb0 : b < 256 := hb b (List.mem_cons_self _ _)
    have hbs : IsBytes bs := fun x hx => hb x (List.mem_cons_of_mem _ hx)
    have := ih hbs (specStep ((List.range 256).map (specEntry p)) r b)
    unfold specRegister at this ⊢
    rw [List.foldl_cons, List.foldl_cons, this, specStep_eq_bitwiseByte p r b hb0]

theorem crc32_table_eq : crc32_table = (List.range 256).map (specEntry poly32) := by
  unfold crc32_table init; rw [initWith_eq]

theorem crc64_table_eq : crc64_table = (List.range 256).map (specEntry poly64) := by
  unfold crc64_table init; rw [initWith_eq]

/-- The table-driven update, for a table generated with `p`, is the bitwise reference. -/
theorem update_eq_bitwise (w p : Nat) {buf : List Nat} (hb : IsBytes buf) (s : Nat) :
    update w ((List.range 256).map (specEntry p)) buf s = some (bitwiseUpdate w p buf s) := by
  rw [update_eq (by simp) hb, specRegister_eq_bitwise p buf hb]
  rfl

/-! ## The round is injective on `w`-bit registers -/

/-- When the top bit of the polynomial is set, the top bit of the round's
result is the bit that was shifted out. -/
theorem specRound_testBit_top {w p r : Nat} (hp : p.testBit w = true) (hr : r < 2 ^ (w + 1)) :
    (specRound p r).testBit w = decide (r % 2 = 1) := by
  have hs : (r >>> 1).testBit w = false := by
    rw [Nat.testBit_shiftRight, Nat.add_comm]
    exact Nat.testBit_lt_two_pow hr
  rw [specRound_eq, Nat.testBit_xor, hs]
  by_cases h : r % 2 = 1
  · simp [h, hp]
  · simp [h]

theorem specRound_injOn {w p : Nat} (hp : p.testBit w = true) {a b : Nat}
    (ha : a < 2 ^ (w + 1)) (hb : b < 2 ^ (w + 1)) (h : specRound p a = specRound p b) :
    a = b := by
  have ht : decide (a % 2 = 1) = decide (b % 2 = 1) := by
    rw [← specRound_testBit_top hp ha, ← specRound_testBit_top hp hb, h]
  have hpar : a % 2 = b % 2 := by
    rcases Nat.mod_two_eq_zero_or_one a with h1 | h1 <;>
      rcases Nat.mod_two_eq_zero_or_one b with h2 | h2 <;> simp [h1, h2] at ht ⊢
  rw [specRound_eq, specRound_eq, hpar, Nat.xor_left_inj, Nat.shiftRight_one,
    Nat.shiftRight_one] at h
  omega

theorem specRound_iterate_injOn {w p : Nat} (hp : p.testBit w = true) (hlt : p < 2 ^ (w + 1))
    (n : Nat) : ∀ {a b : Nat}, a < 2 ^ (w + 1) → b < 2 ^ (w + 1) →
      (specRound p)^[n] a = (specRound p)^[n] b → a = b := by
  induction n with
  | zero => intro a b _ _ h; exact h
  | succ n ih =>
    intro a b ha hb h
    rw [Function.iterate_succ_apply, Function.iterate_succ_apply] at h
    exact specRound_injOn hp ha hb (ih (specRound_lt hlt ha) (specRound_lt hlt hb) h)

theorem bitwiseByte_lt {w p : Nat} (hw : 8 ≤ w) (hlt : p < 2 ^ w) {r b : Nat}
    (hr : r < 2 ^ w) (hb : b < 256) : bitwiseByte p r b < 2 ^ w := by
  have hb2 : b < 2 ^ w :=
    lt_of_lt_of_le hb (Nat.pow_le_pow_right (by decide) hw : 2 ^ 8 ≤ 2 ^ w)
  exact specRound_iterate_lt hlt 8 (Nat.xor_lt_two_pow hr hb2)

theorem bitwise_foldl_lt {w p : Nat} (hw : 8 ≤ w) (hlt : p < 2 ^ w) (buf : List Nat)
    (hb : IsBytes buf) : ∀ {r : Nat}, r < 2 ^ w → buf.foldl (bitwiseByte p) r < 2 ^ w := by
  induction buf with
  | nil => intro r hr; exact hr
  | cons b bs ih =>
    intro r hr
    rw [List.foldl_cons]
    exact ih (fun x hx => hb x (List.mem_cons_of_mem _ hx))
      (bitwiseByte_lt hw hlt hr (hb b (List.mem_cons_self _ _)))

/-- One byte step is injective in the register and in the byte. -/
theorem bitwiseByte_injOn {w p : Nat} (hw : 7 ≤ w) (hp : p.testBit w = true)
    (hlt : p < 2 ^ (w + 1)) {r1 r2 b1 b2 : Nat} (h1 : r1 < 2 ^ (w + 1)) (h2 : r2 < 2 ^ (w + 1))
    (hb1 : b1 < 256) (hb2 : b2 < 256) (h : bitwiseByte p r1 b1 = bitwiseByte p r2 b2) :
    r1 ^^^ b1 = r2 ^^^ b2 := by
  have hle : 2 ^ 8 ≤ 2 ^ (w + 1) := Nat.pow_le_pow_right (by decide) (by omega)
  exact specRound_iterate_injOn hp hlt 8 (Nat.xor_lt_two_pow h1 (lt_of_lt_of_le hb1 hle))
    (Nat.xor_lt_two_pow h2 (lt_of_lt_of_le hb2 hle)) h

/-- The register after a byte sequence is injective in the starting register. -/
theorem bitwise_foldl_injOn {w p : Nat} (hw : 7 ≤ w) (hp : p.testBit w = true)
    (hlt : p < 2 ^ (w + 1)) (buf : List Nat) (hb : IsBytes buf) :
    ∀ {r1 r2 : Nat}, r1 < 2 ^ (w + 1) → r2 < 2 ^ (w + 1) →
      buf.foldl (bitwiseByte p) r1 = buf.foldl (bitwiseByte p) r2 → r1 = r2 := by
  induction buf with
  | nil => intro r1 r2 _ _ h; exact h
  | cons b bs ih =>
    intro r1 r2 h1 h2 h
    have hb0 : b < 256 := hb b (List.mem_cons_self _ _)
    have hbs : IsBytes bs := fun x hx => hb x (List.mem_cons_of_mem _ hx)
    rw [List.foldl_cons, List.foldl_cons] at h
    have h3 := ih hbs (bitwiseByte_lt (by omega) hlt h1 hb0) (bitwiseByte_lt (by omega) hlt h2 hb0) h
    exact Nat.xor_left_inj.1 (bitwiseByte_injOn hw hp hlt h1 h2 hb0 hb0 h3)

theorem complW_injOn {w a b : Nat} (ha : a < 2 ^ w) (hb : b < 2 ^ w)
    (h : complW w a = complW w b) : a = b := by
  rw [← complW_complW ha, ← complW_complW hb, h]

/-- The bitwise update is injective in the state. -/
theorem bitwiseUpdate_injOn {w p : Nat} (hw : 7 ≤ w) (hp : p.testBit w = true)
    (hlt : p < 2 ^ (w + 1)) {buf : List Nat} (hb : IsBytes buf) {s1 s2 : Nat}
    (h1 : s1 < 2 ^ (w + 1)) (h2 : s2 < 2 ^ (w + 1))
    (h : bitwiseUpdate (w + 1) p buf s1 = bitwiseUpdate (w + 1) p buf s2) : s1 = s2 := by
  unfold bitwiseUpdate at h
  have hc1 := complW_lt (w + 1) s1
  have hc2 := complW_lt (w + 1) s2
  have h3 := complW_injOn (bitwise_foldl_lt (by omega) hlt buf hb hc1)
    (bitwise_foldl_lt (by omega) hlt buf hb hc2) h
  exact complW_injOn h1 h2 (bitwise_foldl_injOn hw hp hlt buf hb hc1 hc2 h3)

/-- Two byte sequences that differ at one position only give different results. -/
theorem bitwiseUpdate_single_byte {w p : Nat} (hw : 7 ≤ w) (hp : p.testBit w = true)
    (hlt : p < 2 ^ (w + 1)) {P Q : List Nat} {a b : Nat} (hP : IsBytes P) (hQ : IsBytes Q)
    (ha : a < 256) (hb : b < 256) (hab : a ≠ b) (s : Nat) :
    bitwiseUpdate (w + 1) p (P ++ a :: Q) s ≠ bitwiseUpdate (w + 1) p (P ++ b :: Q) s := by
  intro h
  unfold bitwiseUpdate at h
  have hr := bitwise_foldl_lt (by omega : 8 ≤ w + 1) hlt P hP (complW_lt (w + 1) s)
  have hA : IsBytes (P ++ a :: Q) := by
    intro x hx
    rcases List.mem_append.1 hx with h1 | h1
    · exact hP x h1
    · rcases List.mem_cons.1 h1 with h2 | h2
      · rw [h2]; exact ha
      · exact hQ x h2
  have hB : IsBytes (P ++ b :: Q) := by
    intro x hx
    rcases List.mem_append.1 hx with h1 | h1
    · exact hP x h1
    · rcases List.mem_cons.1 h1 with h2 | h2
      · rw [h2]; exact hb
      · exact hQ x h2
  have h3 := complW_injOn (bitwise_foldl_lt (by omega) hlt _ hA (complW_lt (w + 1) s))
    (bitwise_foldl_lt (by omega) hlt _ hB (complW_lt (w + 1) s)) h
  rw [List.foldl_append, List.foldl_append, List.foldl_cons, List.foldl_cons] at h3
  have h4 := bitwise_foldl_injOn hw hp hlt Q hQ (bitwiseByte_lt (by omega) hlt hr ha)
    (bitwiseByte_lt (by omega) hlt hr hb) h3
  exact hab (Nat.xor_right_inj.1 (bitwiseByte_injOn hw hp hlt hr hr ha hb h4))

/-! ## Sequences that differ at one position -/

/-- Two lists of the same length that agree everywhere but at position `k`
are a common part before `k`, the two different elements, and a common part after. -/
theorem split_at_diff {A B : List Nat} (hlen : A.length = B.length) {k : Nat}
    (hk : k < A.length) (hsame : ∀ j, j ≠ k → A[j]? = B[j]?) :
    ∃ P Q a b, A = P ++ a :: Q ∧ B = P ++ b :: Q ∧ A[k]? = some a ∧ B[k]? = some b := by
  have hkB : k < B.length := hlen ▸ hk
  refine ⟨A.take k, A.drop (k + 1), A[k], B[k], ?_, ?_, List.getElem?_eq_getElem hk,
    List.getElem?_eq_getElem hkB⟩
  · rw [← List.drop_eq_getElem_cons hk, List.take_append_drop]
  · have h1 : A.take k = B.take k := by
      apply List.ext_getElem?
      intro j
      by_cases hj : j < k
      · rw [List.getElem?_take_of_lt hj, List.getElem?_take_of_lt hj]
        exact hsame j (by omega)
      · rw [List.getElem?_eq_none (by rw [List.length_take]; omega),
          List.getElem?_eq_none (by rw [List.length_take]; omega)]
    have h2 : A.drop (k + 1) = B.drop (k + 1) := by
      apply List.ext_getElem?
      intro j
      rw [List.getElem?_drop, List.getElem?_drop]
      exact hsame _ (by omega)
    rw [h1, h2, ← List.drop_eq_getElem_cons hkB, List.take_append_drop]

theorem isBytes_append_cons {P Q : List Nat} {a : Nat} (h : IsBytes (P ++ a :: Q)) :
    IsBytes P ∧ a < 256 ∧ IsBytes Q :=
  ⟨fun x hx => h x (List.mem_append_left _ hx),
    h a (List.mem_append_right _ (List.mem_cons_self _ _)),
    fun x hx => h x (List.mem_append_right _ (List.mem_cons_of_mem _ hx))⟩

/-! ## Appending the checksum -/

theorem isBytes_leBytes (n v : Nat) : IsBytes (leBytes n v) := by
  induction n generalizing v with
  | zero => intro b hb; simp [leBytes] at hb
  | succ n ih =>
    intro b hb
    rcases List.mem_cons.1 hb with h | h
    · rw [h]; exact Nat.mod_lt _ (by decide)
    · exact ih _ b h

theorem leBytes_zero (n : Nat) : leBytes n 0 = List.replicate n 0 := by
  induction n with
  | zero => rfl
  | succ n ih => simp [leBytes, ih, List.replicate_succ]

theorem split_low_byte_div (v : Nat) : (v % 256) ^^^ ((v / 256) <<< 8) = v := by
  have h := split_low_byte v
  have h255 : (0xFF : Nat) = 2 ^ 8 - 1 := by decide
  rw [h255, Nat.and_pow_two_sub_one_eq_mod, Nat.shiftRight_eq_div_pow] at h
  exact h

/-- Feeding the `n` little-endian bytes of `v` is `8 * n` rounds on the
register XOR `v`. -/
theorem foldl_leBytes (p : Nat) (n : Nat) : ∀ (v r : Nat), v < 2 ^ (8 * n) →
    (leBytes n v).foldl (bitwiseByte p) r = (specRound p)^[8 * n] (r ^^^ v) := by
  induction n with
  | zero =>
    intro v r hv
    have : v = 0 := by simpa using hv
    subst this
    simp [leBytes]
  | succ n ih =>
    intro v r hv
    have hv2 : v / 256 < 2 ^ (8 * n) := by
      rw [Nat.div_lt_iff_lt_mul (by decide)]
      have : 2 ^ (8 * (n + 1)) = 2 ^ (8 * n) * 256 := by
        rw [Nat.mul_succ, Nat.pow_add]
      omega
    have hstep : bitwiseByte p r (v % 256) ^^^ (v / 256) = (specRound p)^[8] (r ^^^ v) := by
      unfold bitwiseByte
      have h1 : v / 256 = (specRound p)^[8] ((v / 256) <<< 8) :=
        (specRound_iterate_shiftLeft p 8 (v / 256)).symm
      rw [h1, ← specRound_iterate_xor, Nat.xor_assoc, split_low_byte_div]
    have h8 : 8 * (n + 1) = 8 * n + 8 := by omega
    rw [leBytes, List.foldl_cons, ih _ _ hv2, hstep, h8, Function.iterate_add_apply]

theorem complW_eq_xor {w x : Nat} (hx : x < 2 ^ w) : complW w x = x ^^^ (2 ^ w - 1) := by
  unfold complW; rw [Nat.mod_eq_of_lt hx]

/-- The register after a message followed by its own checksum, in the bitwise
reference: always the register after `n` zero bytes from state 0. -/
theorem bitwiseUpdate_residue {p : Nat} (n : Nat) (hn : 1 ≤ n) (hlt : p < 2 ^ (8 * n))
    {M : List Nat} (hM : IsBytes M) (s : Nat) :
    bitwiseUpdate (8 * n) p (M ++ leBytes n (bitwiseUpdate (8 * n) p M s)) s
      = bitwiseUpdate (8 * n) p (List.replicate n 0) 0 := by
  have hR := bitwise_foldl_lt (by omega : 8 ≤ 8 * n) hlt M hM (complW_lt (8 * n) s)
  have h0 : complW (8 * n) 0 = 2 ^ (8 * n) - 1 := by
    rw [complW_eq_xor (Nat.two_pow_pos _), Nat.zero_xor]
  unfold bitwiseUpdate
  rw [List.foldl_append, foldl_leBytes p n _ _ (complW_lt _ _), complW_eq_xor hR,
    Nat.xor_cancel_left, ← leBytes_zero, foldl_leBytes p n _ _ (Nat.two_pow_pos _), h0,
    Nat.xor_zero]

/-! ## XOR of three inputs -/

theorem xor3_pairs (a b c x y z : Nat) :
    (a ^^^ b ^^^ c) ^^^ (x ^^^ y ^^^ z) = (a ^^^ x) ^^^ (b ^^^ y) ^^^ (c ^^^ z) := by
  apply Nat.eq_of_testBit_eq
  intro i
  simp only [Nat.testBit_xor]
  cases a.testBit i <;> cases b.testBit i <;> cases c.testBit i <;>
    cases x.testBit i <;> cases y.testBit i <;> cases z.testBit i <;> rfl

theorem isBytes_xor3 {A B C : List Nat} (hA : IsBytes A) (hB : IsBytes B) (hC : IsBytes C) :
    IsBytes (xor3 A B C) := by
  induction A generalizing B C with
  | nil => intro x hx; simp [xor3] at hx
  | cons a as ih =>
    cases B with
    | nil => intro x hx; simp [xor3] at hx
    | cons b bs =>
      cases C with
      | nil => intro x hx; simp [xor3] at hx
      | cons c cs =>
        intro x hx
        have ha : a < 2 ^ 8 := hA a (List.mem_cons_self _ _)
        have hb : b < 2 ^ 8 := hB b (List.mem_cons_self _ _)
        have hc : c < 2 ^ 8 := hC c (List.mem_cons_self _ _)
        have hx2 : x ∈ (a ^^^ b ^^^ c) :: xor3 as bs cs := by simpa [xor3] using hx
        rcases List.mem_cons.1 hx2 with h | h
        · rw [h]; exact Nat.xor_lt_two_pow (Nat.xor_lt_two_pow ha hb) hc
        · exact ih (fun y hy => hA y (List.mem_cons_of_mem _ hy))
            (fun y hy => hB y (List.mem_cons_of_mem _ hy))
            (fun y hy => hC y (List.mem_cons_of_mem _ hy)) x h

/-- The register is XOR-additive in (start, input) triples of equal length. -/
theorem bitwise_foldl_xor3 (p : Nat) (A : List Nat) :
    ∀ (B C : List Nat), A.length = B.length → A.length = C.length → ∀ (r1 r2 r3 : Nat),
      (xor3 A B C).foldl (bitwiseByte p) (r1 ^^^ r2 ^^^ r3)
        = A.foldl (bitwiseByte p) r1 ^^^ B.foldl (bitwiseByte p) r2
            ^^^ C.foldl (bitwiseByte p) r3 := by
  induction A with
  | nil =>
    intro B C hB hC r1 r2 r3
    have hB2 : B = [] := List.length_eq_zero.1 hB.symm
    have hC2 : C = [] := List.length_eq_zero.1 hC.symm
    subst hB2 hC2
    rfl
  | cons a as ih =>
    intro B C hB hC r1 r2 r3
    cases B with
    | nil => simp at hB
    | cons b bs =>
      cases C with
      | nil => simp at hC
      | cons c cs =>
        have hstep : bitwiseByte p (r1 ^^^ r2 ^^^ r3) (a ^^^ b ^^^ c)
            = bitwiseByte p r1 a ^^^ bitwiseByte p r2 b ^^^ bitwiseByte p r3 c := by
          unfold bitwiseByte
          rw [xor3_pairs, specRound_iterate_xor, specRound_iterate_xor]
        have hx : xor3 (a :: as) (b :: bs) (c :: cs) = (a ^^^ b ^^^ c) :: xor3 as bs cs := rfl
        rw [hx, List.foldl_cons, List.foldl_cons, List.foldl_cons, List.foldl_cons, hstep]
        exact ih bs cs (by simpa using hB) (by simpa using hC) _ _ _

theorem ones_xor3 (m : Nat) : m ^^^ m ^^^ m = m := by
  rw [Nat.xor_self, Nat.zero_xor]

/-- The bitwise update of the XOR of three equal-length inputs, from one
state, is the XOR of the three updates. -/
theorem bitwiseUpdate_xor3 {w p : Nat} (hw : 8 ≤ w) (hlt : p < 2 ^ w) {A B C : List Nat}
    (hA : IsBytes A) (hB : IsBytes B) (hC : IsBytes C)
    (hAB : A.length = B.length) (hAC : A.length = C.length) (s : Nat) :
    bitwiseUpdate w p (xor3 A B C) s
      = bitwiseUpdate w p A s ^^^ bitwiseUpdate w p B s ^^^ bitwiseUpdate w p C s := by
  have hs := complW_lt w s
  have h := bitwise_foldl_xor3 p A B C hAB hAC (complW w s) (complW w s) (complW w s)
  rw [ones_xor3] at h
  have hRA := bitwise_foldl_lt hw hlt A hA hs
  have hRB := bitwise_foldl_lt hw hlt B hB hs
  have hRC := bitwise_foldl_lt hw hlt C hC hs
  unfold bitwiseUpdate
  rw [h, complW_eq_xor hRA, complW_eq_xor hRB, complW_eq_xor hRC,
    complW_eq_xor (Nat.xor_lt_two_pow (Nat.xor_lt_two_pow hRA hRB) hRC),
    ← xor3_pairs, ones_xor3]

/-- The generated table is XOR-additive in its index. -/
theorem specEntry_xor (p a b : Nat) :
    specEntry p (a ^^^ b) = specEntry p a ^^^ specEntry p b :=
  specRound_iterate_xor p 8 a b

theorem table_getElem?_xor (p : Nat) {a b : Nat} (ha : a < 256) (hb : b < 256) :
    ∃ x y, ((List.range 256).map (specEntry p))[a]? = some x ∧
      ((List.range 256).map (specEntry p))[b]? = some y ∧
      ((List.range 256).map (specEntry p))[a ^^^ b]? = some (x ^^^ y) := by
  have hab : a ^^^ b < 256 := Nat.xor_lt_two_pow (n := 8) ha hb
  refine ⟨specEntry p a, specEntry p b, ?_, ?_, ?_⟩
  · rw [List.getElem?_map, List.getElem?_range ha]; rfl
  · rw [List.getElem?_map, List.getElem?_range hb]; rfl
  · rw [List.getElem?_map, List.getElem?_range hab, ← specEntry_xor]; rfl

/-! ## Claims on the algebra of the update -/

theorem poly32_top : poly32.testBit 31 = true := by decide

theorem poly64_top : poly64.testBit 63 = true := by decide

theorem crc32_eq_bitwise {S : List Nat} (hS : IsBytes S) (s : Nat) :
    crc32 crc32_table S s = some (bitwiseUpdate 32 poly32 S s) := by
  rw [crc32_eq_update, crc32_table_eq]
  exact update_eq_bitwise 32 poly32 hS s

theorem crc64_eq_bitwise {S : List Nat} (hS : IsBytes S) (s : Nat) :
    crc64 crc64_table S s = some (bitwiseUpdate 64 poly64 S s) := by
  rw [crc64_eq_update, crc64_table_eq]
  exact update_eq_bitwise 64 poly64 hS s

set_option maxRecDepth 100000 in
theorem crc32_four_zero_bytes : crc32 crc32_table (List.replicate 4 0) 0 = some 0x2144DF1C := by
  rfl

set_option maxRecDepth 100000 in
theorem crc64_eight_zero_bytes :
    crc64 crc64_table (List.replicate 8 0) 0 = some 0xB66A73654282CAC0 := by
  rfl

/-- C11 (table-driven update refines the bit-at-a-time CRC): for both widths,
for every state and every byte sequence, `crc32` / `crc64` with the tables of
`init` return the value of the bitwise reference: complement the state; for
each byte in order XOR it into the low 8 bits and do eight rounds of
shift-right-and-conditionally-XOR-the-polynomial; complement the result. -/
theorem C11_refines_bitwise (s32 s64 : Nat) (S : List Nat) (hS : IsBytes S) :
    crc32 crc32_table S s32 = some (bitwiseUpdate 32 0xEDB88320 S s32) ∧
    crc64 crc64_table S s64 = some (bitwiseUpdate 64 0xC96C5795D7870F42 S s64) :=
  ⟨crc32_eq_bitwise hS s32, crc64_eq_bitwise hS s64⟩

/-- Witness for C11: the bytes "12" from states 5 and 7. -/
theorem C11_refines_bitwise_witness :
    IsBytes [0x31, 0x32] ∧
    crc32 crc32_table [0x31, 0x32] 5 = some (bitwiseUpdate 32 0xEDB88320 [0x31, 0x32] 5) ∧
    crc64 crc64_table [0x31, 0x32] 7
      = some (bitwiseUpdate 64 0xC96C5795D7870F42 [0x31, 0x32] 7) :=
  ⟨by decide, C11_refines_bitwise 5 7 [0x31, 0x32] (by decide)⟩

set_option maxRecDepth 100000 in
/-- C12 (CRC-64 known vector): after `init`, `crc64` on the nine ASCII bytes
"123456789" with initial state 0 returns `0x995DC9BBDF1939FA`. -/
theorem C12_known_vector_crc64 :
    crc64 crc64_table [0x31, 0x32, 0x33, 0x34, 0x35, 0x36, 0x37, 0x38, 0x39] 0
      = some 0x995DC9BBDF1939FA := by
  rfl

/-- C13 (single-byte error detection): for both widths, for every initial
state and every two byte sequences of the same length that differ at
position `k` and nowhere else, the two calls return values and the values
are different. -/
theorem C13_single_byte_error (s32 s64 : Nat) (A B : List Nat) (k : Nat)
    (hA : IsBytes A) (hB : IsBytes B) (hlen : A.length = B.length) (hk : k < A.length)
    (hne : A[k]? ≠ B[k]?) (hsame : ∀ j, j ≠ k → A[j]? = B[j]?) :
    (∃ va vb, crc32 crc32_table A s32 = some va ∧ crc32 crc32_table B s32 = some vb ∧
      va ≠ vb) ∧
    (∃ va vb, crc64 crc64_table A s64 = some va ∧ crc64 crc64_table B s64 = some vb ∧
      va ≠ vb) := by
  obtain ⟨P, Q, a, b, hAe, hBe, hka, hkb⟩ := split_at_diff hlen hk hsame
  have hab : a ≠ b := by
    intro h
    apply hne
    rw [hka, hkb, h]
  have hA2 := hA
  have hB2 := hB
  rw [hAe] at hA2
  rw [hBe] at hB2
  obtain ⟨hP, ha, hQ⟩ := isBytes_append_cons hA2
  obtain ⟨_, hb, _⟩ := isBytes_append_cons hB2
  refine ⟨⟨_, _, crc32_eq_bitwise hA s32, crc32_eq_bitwise hB s32, ?_⟩,
    ⟨_, _, crc64_eq_bitwise hA s64, crc64_eq_bitwise hB s64, ?_⟩⟩
  · rw [hAe, hBe]
    exact bitwiseUpdate_single_byte (w := 31) (by decide) poly32_top (by decide) hP hQ ha hb
      hab s32
  · rw [hAe, hBe]
    exact bitwiseUpdate_single_byte (w := 63) (by decide) poly64_top (by decide) hP hQ ha hb
      hab s64

/-- Witness for C13: `[1, 2, 3]` against `[1, 7, 3]`, from state 0. -/
theorem C13_single_byte_error_witness :
    (IsBytes [1, 2, 3] ∧ IsBytes [1, 7, 3] ∧ [1, 2, 3].length = [1, 7, 3].length ∧
      1 < [1, 2, 3].length ∧ [1, 2, 3][1]? ≠ [1, 7, 3][1]? ∧
      ∀ j, j ≠ 1 → [1, 2, 3][j]? = [1, 7, 3][j]?) ∧
    (∃ va vb, crc32 crc32_table [1, 2, 3] 0 = some va ∧ crc32 crc32_table [1, 7, 3] 0 = some vb ∧
      va ≠ vb) ∧
    (∃ va vb, crc64 crc64_table [1, 2, 3] 0 = some va ∧ crc64 crc64_table [1, 7, 3] 0 = some vb ∧
      va ≠ vb) := by
  have hsame : ∀ j, j ≠ 1 → [1, 2, 3][j]? = [1, 7, 3][j]? := by
    intro j hj
    rcases j with _ | _ | _ | j
    · rfl
    · exact absurd rfl hj
    · rfl
    · rfl
  exact ⟨⟨by decide, by decide, by decide, by decide, by decide, hsame⟩,
    C13_single_byte_error 0 0 [1, 2, 3] [1, 7, 3] 1 (by decide) (by decide) (by decide)
      (by decide) (by decide) hsame⟩

/-- C14 (appended-checksum residue): for both widths `W`, for every byte
sequence `M` and every initial state `s`, the call on `M` returns a value `c`,
and the call on `M` followed by the `W / 8` little-endian bytes of `c`, from
the same `s`, returns what the call on `W / 8` zero bytes from state 0
returns, whatever `M` and `s` are; that constant is `0x2144DF1C` for CRC-32
(and `0xB66A73654282CAC0` for CRC-64). -/
theorem C14_residue (s32 s64 : Nat) (M : List Nat) (hM : IsBytes M) :
    ((∃ c, crc32 crc32_table M s32 = some c ∧
        crc32 crc32_table (M ++ leBytes 4 c) s32 = crc32 crc32_table (List.replicate 4 0) 0) ∧
      crc32 crc32_table (List.replicate 4 0) 0 = some 0x2144DF1C) ∧
    ((∃ c, crc64 crc64_table M s64 = some c ∧
        crc64 crc64_table (M ++ leBytes 8 c) s64 = crc64 crc64_table (List.replicate 8 0) 0) ∧
      crc64 crc64_table (List.replicate 8 0) 0 = some 0xB66A73654282CAC0) := by
  have hz4 : IsBytes (List.replicate 4 0) := by decide
  have hz8 : IsBytes (List.replicate 8 0) := by decide
  have happ : ∀ n c, IsBytes (M ++ leBytes n c) := by
    intro n c x hx
    rcases List.mem_append.1 hx with h | h
    · exact hM x h
    · exact isBytes_leBytes n c x h
  refine ⟨⟨⟨_, crc32_eq_bitwise hM s32, ?_⟩, crc32_four_zero_bytes⟩,
    ⟨⟨_, crc64_eq_bitwise hM s64, ?_⟩, crc64_eight_zero_bytes⟩⟩
  · rw [crc32_eq_bitwise (happ _ _), crc32_eq_bitwise hz4]
    exact congrArg some (bitwiseUpdate_residue 4 (by decide) (by decide) hM s32)
  · rw [crc64_eq_bitwise (happ _ _), crc64_eq_bitwise hz8]
    exact congrArg some (bitwiseUpdate_residue 8 (by decide) (by decide) hM s64)

/-- Witness for C14: the message "12" from states 5 and 7. -/
theorem C14_residue_witness :
    IsBytes [0x31, 0x32] ∧
    ((∃ c, crc32 crc32_table [0x31, 0x32] 5 = some c ∧
        crc32 crc32_table ([0x31, 0x32] ++ leBytes 4 c) 5
          = crc32 crc32_table (List.replicate 4 0) 0) ∧
      crc32 crc32_table (List.replicate 4 0) 0 = some 0x2144DF1C) :=
  ⟨by decide, (C14_residue 5 7 [0x31, 0x32] (by decide)).1⟩

/-- C15 (XOR-affinity): for both widths, for all byte sequences `A`, `B`, `C`
of the same length, the three calls from state 0 return values and the call
on the bytewise XOR `A ⊕ B ⊕ C` from state 0 returns their XOR; and both
tables are GF(2)-linear: `table[a XOR b] = table[a] XOR table[b]` for all
bytes `a`, `b`. -/
theorem C15_xor_affinity (A B C : List Nat) (a b : Nat)
    (hA : IsBytes A) (hB : IsBytes B) (hC : IsBytes C)
    (hAB : A.length = B.length) (hAC : A.length = C.length) (ha : a < 256) (hb : b < 256) :
    ((∃ va vb vc, crc32 crc32_table A 0 = some va ∧ crc32 crc32_table B 0 = some vb ∧
        crc32 crc32_table C 0 = some vc ∧
        crc32 crc32_table (xor3 A B C) 0 = some (va ^^^ vb ^^^ vc)) ∧
      (∃ va vb vc, crc64 crc64_table A 0 = some va ∧ crc64 crc64_table B 0 = some vb ∧
        crc64 crc64_table C 0 = some vc ∧
        crc64 crc64_table (xor3 A B C) 0 = some (va ^^^ vb ^^^ vc))) ∧
    ((∃ x y, crc32_table[a]? = some x ∧ crc32_table[b]? = some y ∧
        crc32_table[a ^^^ b]? = some (x ^^^ y)) ∧
      (∃ x y, crc64_table[a]? = some x ∧ crc64_table[b]? = some y ∧
        crc64_table[a ^^^ b]? = some (x ^^^ y))) := by
  have hX := isBytes_xor3 hA hB hC
  refine ⟨⟨⟨_, _, _, crc32_eq_bitwise hA 0, crc32_eq_bitwise hB 0, crc32_eq_bitwise hC 0, ?_⟩,
    ⟨_, _, _, crc64_eq_bitwise hA 0, crc64_eq_bitwise hB 0, crc64_eq_bitwise hC 0, ?_⟩⟩,
    ?_, ?_⟩
  · rw [crc32_eq_bitwise hX]
    exact congrArg some (bitwiseUpdate_xor3 (by decide) (by decide) hA hB hC hAB hAC 0)
  · rw [crc64_eq_bitwise hX]
    exact congrArg some (bitwiseUpdate_xor3 (by decide) (by decide) hA hB hC hAB hAC 0)
  · rw [crc32_table_eq]; exact table_getElem?_xor poly32 ha hb
  · rw [crc64_table_eq]; exact table_getElem?_xor poly64 ha hb

/-- Witness for C15: three two-byte sequences and the bytes 3 and 5. -/
theorem C15_xor_affinity_witness :
    (IsBytes [1, 2] ∧ IsBytes [3, 4] ∧ IsBytes [5, 6] ∧ [1, 2].length = [3, 4].length ∧
      [1, 2].length = [5, 6].length ∧ 3 < 256 ∧ 5 < 256) ∧
    (∃ va vb vc, crc32 crc32_table [1, 2] 0 = some va ∧ crc32 crc32_table [3, 4] 0 = some vb ∧
        crc32 crc32_table [5, 6] 0 = some vc ∧
        crc32 crc32_table (xor3 [1, 2] [3, 4] [5, 6]) 0 = some (va ^^^ vb ^^^ vc)) :=
  ⟨⟨by decide, by decide, by decide, by decide, by decide, by decide, by decide⟩,
    (C15_xor_affinity [1, 2] [3, 4] [5, 6] 3 5 (by decide) (by decide) (by decide)
      (by decide) (by decide) (by decide) (by decide)).1.1⟩

/-- C16 (the update is injective in the state): for both widths, for every
byte sequence `S` and all states `s1 ≠ s2`, the two calls return values and
the values are different. -/
theorem C16_injective_in_state (S : List Nat) (s1 s2 t1 t2 : Nat) (hS : IsBytes S)
    (hs1 : s1 < 2 ^ 32) (hs2 : s2 < 2 ^ 32) (hs : s1 ≠ s2)
    (ht1 : t1 < 2 ^ 64) (ht2 : t2 < 2 ^ 64) (ht : t1 ≠ t2) :
    (∃ v1 v2, crc32 crc32_table S s1 = some v1 ∧ crc32 crc32_table S s2 = some v2 ∧
      v1 ≠ v2) ∧
    (∃ v1 v2, crc64 crc64_table S t1 = some v1 ∧ crc64 crc64_table S t2 = some v2 ∧
      v1 ≠ v2) := by
  refine ⟨⟨_, _, crc32_eq_bitwise hS s1, crc32_eq_bitwise hS s2, ?_⟩,
    ⟨_, _, crc64_eq_bitwise hS t1, crc64_eq_bitwise hS t2, ?_⟩⟩
  · intro h
    exact hs (bitwiseUpdate_injOn (w := 31) (by decide) poly32_top (by decide) hS hs1 hs2 h)
  · intro h
    exact ht (bitwiseUpdate_injOn (w := 63) (by decide) poly64_top (by decide) hS ht1 ht2 h)

/-- Witness for C16: the bytes "12" from states 0 and 1. -/
theorem C16_injective_in_state_witness :
    (IsBytes [0x31, 0x32] ∧ (0 : Nat) < 2 ^ 32 ∧ (1 : Nat) < 2 ^ 32 ∧ (0 : Nat) ≠ 1 ∧
      (0 : Nat) < 2 ^ 64 ∧ (1 : Nat) < 2 ^ 64) ∧
    (∃ v1 v2, crc32 crc32_table [0x31, 0x32] 0 = some v1 ∧
      crc32 crc32_table [0x31, 0x32] 1 = some v2 ∧ v1 ≠ v2) ∧
    (∃ v1 v2, crc64 crc64_table [0x31, 0x32] 0 = some v1 ∧
      crc64 crc64_table [0x31, 0x32] 1 = some v2 ∧ v1 ≠ v2) :=
  ⟨⟨by decide, by decide, by decide, by decide, by decide, by decide⟩,
    C16_injective_in_state [0x31, 0x32] 0 1 0 1 (by decide) (by decide) (by decide)
      (by decide) (by decide) (by decide) (by decide)⟩

end Crc
